import Mathlib

/-!
Verification development for the beauty-product recommendation engine
(`app.py`, class `BeautyProductRecommendationSystem`).

The Python source is shallowly embedded: strings are lists of characters,
pandas/NumPy numeric cells are exact rationals (`Option` marks NaN), the
similarity pipeline is modelled over the reals, and every operation of the
engine is a total Lean function mirroring the corresponding Python method.
Scope notes for the embedding:
* `str.lower` and the regex classes are modelled at ASCII scope, which covers
  every character class the source actually manipulates;
* floating-point arithmetic is idealised as exact rational/real arithmetic.
-/

namespace SisPro

/-- ASCII model of Python `str.lower`: basic latin uppercase letters are
mapped to the corresponding lowercase letters, every other character is
unchanged (`Char.toLower` implements exactly this). -/
def lcChar (c : Char) : Char := c.toLower

/-- Lower-casing of a whole string (list of characters). -/
def lcList (l : List Char) : List Char := l.map lcChar

/-- The whitespace characters stripped by Python `str.strip`. -/
def pySpace (c : Char) : Bool :=
  c == ' ' || c == '\t' || c == '\n' || c == '\x0d' || c == '\x0b' || c == '\x0c'

/-- Python `str.strip`: drop leading and trailing whitespace. -/
def pyStrip (l : List Char) : List Char :=
  ((l.dropWhile pySpace).reverse.dropWhile pySpace).reverse

/-- A character of the regex class `\w` (ASCII scope): letters, digits, `_`. -/
def wordChar (c : Char) : Bool := c.isAlphanum || c == '_'

/-- Does `text` start with `pat`? -/
def beginsWith : List Char → List Char → Bool
  | [], _ => true
  | _ :: _, [] => false
  | p :: ps, c :: cs => p == c && beginsWith ps cs

/-- Python substring containment `pat in text`. -/
def hasSub (pat : List Char) : List Char → Bool
  | [] => pat.isEmpty
  | c :: cs => beginsWith pat (c :: cs) || hasSub pat cs

/-- Delimiters of `re.split` pattern `[,|/;&]` in `_parse_skin_tokens`. -/
def isDelim (c : Char) : Bool :=
  c == ',' || c == '|' || c == '/' || c == ';' || c == '&'

/-- Accumulating worker for `splitDelims`; `cur` holds the current piece
reversed. -/
def splitAux (cur : List Char) : List Char → List (List Char)
  | [] => [cur.reverse]
  | c :: cs =>
      if isDelim c then cur.reverse :: splitAux [] cs
      else splitAux (c :: cur) cs

/-- Model of `re.split(r"[,|/;&]", text)`: split at each delimiter, keeping
empty pieces, exactly as `re.split` does. -/
def splitDelims (l : List Char) : List (List Char) := splitAux [] l

/-- Word boundary on the right of a candidate match: the rest of the string
is empty or starts with a non-word character. -/
def nonWordNext : List Char → Bool
  | [] => true
  | c :: _ => !wordChar c

def kulitT : List Char := "kulit".toList

def danT : List Char := "dan".toList

/-- Worker for `re.sub(r"\b(kulit|dan)\b", "", t)`.  `prevW` records whether
the character just before the current position in the original string is a
word character (so that the left `\b` can be checked); matches are scanned
left to right and removed, and scanning resumes after each removed match with
`prevW = true` because both removed words end in a word character.  The first
argument is structural-recursion fuel; every step consumes at least one
character, so fuel equal to the input length always suffices (the zero-fuel
fallback is never reached from `rmKulitDan`). -/
def rmFuel : ℕ → Bool → List Char → List Char
  | 0, _, l => l
  | fuel + 1, prevW, l =>
      match l with
      | [] => []
      | c :: cs =>
          if !prevW && beginsWith kulitT (c :: cs) && nonWordNext (cs.drop 4) then
            rmFuel fuel true (cs.drop 4)
          else if !prevW && beginsWith danT (c :: cs) && nonWordNext (cs.drop 2) then
            rmFuel fuel true (cs.drop 2)
          else
            c :: rmFuel fuel (wordChar c) cs

/-- Model of `re.sub(r"\b(kulit|dan)\b", "", t)`: remove every
word-boundary-delimited occurrence of "kulit" or "dan". -/
def rmKulitDan (l : List Char) : List Char := rmFuel l.length false l

def berjerawatT : List Char := "berjerawat".toList

def berminyakT : List Char := "berminyak".toList

def keringT : List Char := "kering".toList

def sensitifT : List Char := "sensitif".toList

def normalT : List Char := "normal".toList

def kombinasiT : List Char := "kombinasi".toList

def kusamT : List Char := "kusam".toList

def semuaT : List Char := "semua".toList

/-- The canonical vocabulary `CANON` of `_canonicalize_skin_token`. -/
def canonList : List (List Char) :=
  [berjerawatT, berminyakT, keringT, sensitifT, normalT, kombinasiT, kusamT, semuaT]

def acneT : List Char := "acne".toList

def jerawatT : List Char := "jerawat".toList

def oilyT : List Char := "oily".toList

def dryT : List Char := "dry".toList

def sensitiveT : List Char := "sensitive".toList

def combT : List Char := "comb".toList

def dullT : List Char := "dull".toList

/-- Embedding of `BeautyProductRecommendationSystem._canonicalize_skin_token`:
lower-case and strip, delete the filler words "kulit"/"dan", then match the
result against the canonical vocabulary and the fixed synonym substrings, in
the exact order of the source's `if` chain. -/
def canonicalize_skin_token (raw : List Char) : Option (List Char) :=
  if raw.isEmpty then none
  else
    let t := pyStrip (rmKulitDan (pyStrip (lcList raw)))
    if t ∈ canonList then some t
    else if hasSub semuaT t then some semuaT
    else if hasSub acneT t || hasSub jerawatT t then some berjerawatT
    else if hasSub oilyT t || hasSub berminyakT t then some berminyakT
    else if hasSub dryT t || hasSub keringT t then some keringT
    else if hasSub sensitiveT t || hasSub sensitifT t then some sensitifT
    else if hasSub combT t || hasSub kombinasiT t then some kombinasiT
    else if hasSub dullT t || hasSub kusamT t then some kusamT
    else none

/-- Embedding of `BeautyProductRecommendationSystem._parse_skin_tokens`.
`none` models a pandas-missing (`NaN`) input, `some raw` an actual string. -/
def parse_skin_tokens (s : Option (List Char)) : Finset (List Char) :=
  match s with
  | none => {semuaT}
  | some raw =>
      let text := lcList raw
      if hasSub semuaT text then {semuaT}
      else
        let toks := (splitDelims text).filterMap canonicalize_skin_token
        if toks.isEmpty then {semuaT} else toks.toFinset

def minyakT : List Char := "minyak".toList

def combinationT : List Char := "combination".toList

/-- Embedding of `BeautyProductRecommendationSystem.normalize_skin_type`:
the user string is lower-cased and matched against the ordered synonym
groups of `skin_type_mapping` (Python dictionaries iterate in insertion
order); the first group containing a matching substring wins, and an
unmatched string falls through to the lower-cased raw string. -/
def normalize_skin_type (user : List Char) : List Char :=
  let u := lcList user
  if hasSub berjerawatT u || hasSub jerawatT u || hasSub acneT u then berjerawatT
  else if hasSub berminyakT u || hasSub oilyT u || hasSub minyakT u then berminyakT
  else if hasSub keringT u || hasSub dryT u then keringT
  else if hasSub sensitifT u || hasSub sensitiveT u then sensitifT
  else if hasSub normalT u then normalT
  else if hasSub kombinasiT u || hasSub combinationT u then kombinasiT
  else if hasSub kusamT u || hasSub dullT u then kusamT
  else u

/-- Embedding of `BeautyProductRecommendationSystem.find_compatible_products`
over the catalog's precomputed `skin_tokens` column: the boolean mask keeps
exactly the rows whose token set contains `semua` or the normalized user
token, in catalog order; the result is the list of kept row positions. -/
def find_compatible_products (tokenSets : List (Finset (List Char)))
    (user : List Char) : List ℕ :=
  let t := normalize_skin_type user
  ((tokenSets.enum.filter (fun p => decide (semuaT ∈ p.2) || decide (t ∈ p.2))).map
    Prod.fst)

/-- One normalized catalog row, restricted to the fields that the similarity
pipeline and the ranker read (`combined_features` sources and `rating`);
`rating` is `none` when the cell is NaN. -/
structure Product where
  jenis_kulit : List Char
  sub_kategori : List Char
  manfaat : List Char
  klaim : List Char
  rating : Option ℚ
deriving DecidableEq

instance : Inhabited Product := ⟨⟨[], [], [], [], none⟩⟩

/-- Python builtin `max` over a list of integers (only applied to non-empty
lists by the source; the empty case is an arbitrary default). -/
def pyMax : List ℤ → ℤ
  | [] => 0
  | c :: cs => cs.foldl max c

/-- One insertion step of the stable descending sort modelling
`DataFrame.sort_values(by="score", ascending=False)`: the inserted earlier
element passes a resident element only when the resident's score is strictly
larger, so equal-scored candidates keep their original relative order. -/
def insertDesc {α : Type} [LinearOrder α] (x : ℤ × α × Product) :
    List (ℤ × α × Product) → List (ℤ × α × Product)
  | [] => [x]
  | y :: ys => if y.2.1 ≤ x.2.1 then x :: y :: ys else y :: insertDesc x ys

/-- Stable descending insertion sort on (index, score, product) rows. -/
def sortDesc {α : Type} [LinearOrder α] :
    List (ℤ × α × Product) → List (ℤ × α × Product)
  | [] => []
  | x :: xs => insertDesc x (sortDesc xs)

/-- Embedding of `BeautyProductRecommendationSystem.rank_on_subset`.

`none` models an uncaught Python exception: after the source's guard
(`max(subset_indices) >= len(products_df)`) passes, a negative candidate
index still reaches `products_df.loc[subset_indices]`, and pandas raises
`KeyError` for labels outside the catalog's 0..N-1 range index.  `some r`
models a normal return of `r`.  The similarity matrix is assumed
index-aligned with the catalog (the spec's Catalog/SimilarityMatrix
invariant), so the guarded accesses are in range and total `getD` access is
faithful.  The float constants 0.6 and 0.4 are idealised as the exact
rationals 3/5 and 2/5. -/
def rank_on_subset {α : Type} [LinearOrderedField α] (products : List Product)
    (simOpt : Option (List (List α))) (subset : List ℤ) (top_n : ℕ) :
    Option (List (ℤ × α × Product)) :=
  if subset.isEmpty then some []
  else
    match simOpt with
    | none => some []
    | some sim =>
        if (products.length : ℤ) ≤ pyMax subset then some []
        else if subset.any (fun i => decide (i < 0)) then none
        else
          let scoreOf : ℤ → α := fun i =>
            let row : List α := sim.getD i.toNat []
            let avg : α :=
              (subset.map (fun j => row.getD j.toNat 0)).sum / (subset.length : α)
            let rat : α := (((products.getD i.toNat default).rating.getD 3 : ℚ) : α)
            avg * (3 / 5) + rat / 5 * (2 / 5)
          let scored :=
            subset.map (fun i => (i, scoreOf i, products.getD i.toNat default))
          some ((sortDesc scored).take top_n)

/-- Spec-side restatement (from the spec's own words, for the refinement
statement of the blended score): the mean cosine similarity of candidate
`i` to all candidates of the subset, itself included. -/
def meanSimSpec {α : Type} [LinearOrderedField α] (sim : List (List α))
    (subset : List ℤ) (i : ℤ) : α :=
  (subset.map (fun j => (sim.getD i.toNat []).getD j.toNat 0)).sum /
    (subset.length : α)

/-- Spec-side restatement of the blended score:
`0.6 × mean_similarity + 0.4 × normalized_rating`, where the rating is
normalised by 5.0 and a missing rating defaults to 3.0. -/
def blendedSpec {α : Type} [LinearOrderedField α] (sim : List (List α))
    (products : List Product) (subset : List ℤ) (i : ℤ) : α :=
  3 / 5 * meanSimSpec sim subset i +
    2 / 5 * ((((products.getD i.toNat default).rating.getD 3 : ℚ) : α) / 5)

def allT : List Char := "all".toList

/-- Spec-side restatement (from the spec's words, for the round-trip claim):
the raw text "contained an all/semua signal", i.e. the lower-cased text
contains the substring "all" or the substring "semua". -/
def hasAllSignal (raw : List Char) : Bool :=
  hasSub allT (lcList raw) || hasSub semuaT (lcList raw)

/-- A pandas cell as `_normalize_schema` sees it: a string, a number (floats
idealised as exact rationals), or missing (NaN). -/
inductive Cell : Type
  | strv (v : List Char)
  | numv (q : ℚ)
  | nan
deriving DecidableEq

/-- A DataFrame restricted to what `_normalize_schema` manipulates: a row
count and named columns of cells.  Duplicate canonical column names (two raw
columns aliasing to the same target, a degenerate pandas situation) are out
of the embedding's scope: the first occurrence is the column. -/
structure PyTable where
  nrows : ℕ
  cols : List (List Char × List Cell)
deriving DecidableEq

/-- First column of the given name, pandas `df[name]`. -/
def getCol (cols : List (List Char × List Cell)) (name : List Char) :
    Option (List Cell) :=
  match cols with
  | [] => none
  | p :: rest => if p.1 = name then some p.2 else getCol rest name

/-- Membership test `name in df.columns`. -/
def hasCol (cols : List (List Char × List Cell)) (name : List Char) : Bool :=
  (getCol cols name).isSome

/-- Column assignment `df[name] = vals`: replace the first column of that
name, or append a new one. -/
def setCol (cols : List (List Char × List Cell)) (name : List Char)
    (vals : List Cell) : List (List Char × List Cell) :=
  match cols with
  | [] => [(name, vals)]
  | p :: rest => if p.1 = name then (name, vals) :: rest else p :: setCol rest name vals

/-- Cell-wise transformation of the column of the given name. -/
def mapCol (cols : List (List Char × List Cell)) (name : List Char)
    (f : Cell → Cell) : List (List Char × List Cell) :=
  match cols with
  | [] => []
  | p :: rest =>
      (if p.1 = name then (p.1, p.2.map f) else p) :: mapCol rest name f

/-- Column-name normalisation
`str(c).lower().strip().replace(" ", "_").replace(".", "")`. -/
def cleanName (name : List Char) : List Char :=
  ((pyStrip (lcList name)).map fun c => if c = ' ' then '_' else c).filter
    fun c => !(c == '.')

/-- The fixed `alias_map` of `_normalize_schema` (`DataFrame.rename`). -/
def aliasName (name : List Char) : List Char :=
  if name = "product_name".toList then "nama_produk".toList
  else if name = "merek".toList then "brand".toList
  else if name = "subkategori".toList then "sub_kategori".toList
  else if name = "skin_type".toList then "jenis_kulit_kompatibel".toList
  else if name = "description".toList then "deskripsi".toList
  else if name = "harga".toList then "harga_idr".toList
  else if name = "price".toList then "harga_idr".toList
  else if name = "size".toList then "size_ml".toList
  else if name = "gambar".toList then "url_gambar".toList
  else if name = "image".toList then "url_gambar".toList
  else if name = "link_gambar".toList then "url_gambar".toList
  else name

def idT : List Char := "id".toList

/-- The numeric canonical columns of `_normalize_schema`. -/
def numericCols : List (List Char) :=
  ["rating".toList, "harga_idr".toList, "size_ml".toList]

/-- The canonical schema `required_cols` (a Python set; a fixed enumeration
order is immaterial because columns are addressed by name). -/
def requiredCols : List (List Char) :=
  [idT, "nama_produk".toList, "brand".toList, "sub_kategori".toList,
   "manfaat".toList, "jenis_kulit_kompatibel".toList, "rating".toList,
   "deskripsi".toList, "harga_idr".toList, "size_ml".toList, "klaim".toList,
   "url_gambar".toList]

/-- The non-numeric, non-id canonical columns that get `astype(str)`. -/
def strCols : List (List Char) :=
  requiredCols.filter fun col => !(decide (col ∈ numericCols) || decide (col = idT))

def digitVal (c : Char) : ℕ := c.toNat - 48

def digitsToNat (l : List Char) : ℕ :=
  l.foldl (fun acc c => 10 * acc + digitVal c) 0

/-- Lenient decimal parser modelling `pd.to_numeric(..., errors="coerce")`
on a string cell: optional sign, digits with at most one decimal point, at
least one digit in total; anything else coerces to missing.  (Scientific
notation and other exotic float spellings are outside the embedding's
scope; the claims only need that some strings parse and garbage does not.) -/
def parseNum (v : List Char) : Option ℚ :=
  let t := pyStrip v
  let signed : ℚ × List Char :=
    match t with
    | '-' :: r => (-1, r)
    | '+' :: r => (1, r)
    | r => (1, r)
  let ip := signed.2.takeWhile Char.isDigit
  let rest := signed.2.dropWhile Char.isDigit
  match rest with
  | [] => if ip.isEmpty then none else some (signed.1 * digitsToNat ip)
  | '.' :: fr =>
      if fr.all Char.isDigit && !(ip.isEmpty && fr.isEmpty) then
        some (signed.1 * ((digitsToNat ip : ℚ) +
          (digitsToNat fr : ℚ) / (10 ^ fr.length)))
      else none
  | _ => none

/-- `pd.to_numeric(cell, errors="coerce")`: numbers pass through, NaN stays
NaN, strings parse leniently or degrade to NaN. -/
def coerceCell : Cell → Cell
  | Cell.numv q => Cell.numv q
  | Cell.nan => Cell.nan
  | Cell.strv v =>
      match parseNum v with
      | some q => Cell.numv q
      | none => Cell.nan

/-- Decimal rendering used by `astype(str)` on numeric cells.  The precise
float formatting is immaterial to every claim (downstream code only
distinguishes string content for skin-token parsing of originally-string
cells); rationals render via `toString`. -/
def ratStr (q : ℚ) : List Char := (toString q).toList

/-- Python `str(cell)`: note `astype(str)` renders NaN as the string "nan",
which is why the source's subsequent `.fillna('')` is a no-op. -/
def pyStr : Cell → List Char
  | Cell.strv v => v
  | Cell.numv q => ratStr q
  | Cell.nan => "nan".toList

/-- One column of `df[col].astype(str).fillna('')` (the `fillna` is a no-op
because after `astype(str)` no NaN cell remains). -/
def astypeStrFill (cell : Cell) : Cell := Cell.strv (pyStr cell)

/-- One step of the missing-column fill loop: `if col not in df.columns:
df[col] = "" if col not numeric else np.nan`. -/
def fillStep (n : ℕ) (cols : List (List Char × List Cell)) (col : List Char) :
    List (List Char × List Cell) :=
  if hasCol cols col then cols
  else setCol cols col (List.replicate n
    (if col ∈ numericCols then Cell.nan else Cell.strv []))

/-- The number of columns carrying the given name.  pandas `df[name]`
yields a Series when this is 1 and a two-or-more-column DataFrame when the
name is duplicated (e.g. two raw columns that alias to the same canonical
name). -/
def countCol (cols : List (List Char × List Cell)) (name : List Char) : ℕ :=
  (cols.filter fun p => decide (p.1 = name)).length

/-- The numeric-coercion loop
`for col in [...]: df[col] = pd.to_numeric(df[col], errors="coerce")`, in
source order.  When the column label is duplicated, `df[col]` is a
DataFrame rather than a Series and `pd.to_numeric` raises TypeError
(`errors="coerce"` does not cover that); `none` models this uncaught
exception. -/
def coerceFold : List (List Char) → List (List Char × List Cell) →
    Option (List (List Char × List Cell))
  | [], cols => some cols
  | c :: rest, cols =>
      if 2 ≤ countCol cols c then none
      else coerceFold rest (mapCol cols c coerceCell)

/-- Embedding of `BeautyProductRecommendationSystem._normalize_schema`:
clean and alias the column names, create every missing canonical column
(NaN-filled for the numeric ones, empty-string-filled otherwise), coerce
the numeric columns leniently to numbers, and stringify the non-numeric
non-id canonical columns.  `none` models the TypeError that
`pd.to_numeric` raises when two input columns collide onto one canonical
numeric name; the coercion loop precedes the stringify loop, so that
exception fires before any stringifying.  (A duplicated non-numeric
canonical label passes `astype(str)` column-wise without raising, which
`mapCol`'s every-occurrence mapping reproduces.) -/
def normalize_schema (t : PyTable) : Option PyTable :=
  (coerceFold numericCols
    (requiredCols.foldl (fillStep t.nrows)
      (t.cols.map fun p => (aliasName (cleanName p.1), p.2)))).map
    fun coerced =>
      ⟨t.nrows,
        strCols.foldl (fun cols col => mapCol cols col astypeStrFill) coerced⟩

/-- Worker collecting maximal runs of word characters (`cur` holds the
current run reversed). -/
def runsAux (cur : List Char) : List Char → List (List Char)
  | [] => if cur.isEmpty then [] else [cur.reverse]
  | c :: cs =>
      if wordChar c then runsAux (c :: cur) cs
      else if cur.isEmpty then runsAux [] cs
      else cur.reverse :: runsAux [] cs

/-- sklearn's default token pattern `\b\w\w+\b` (ASCII scope): the maximal
runs of word characters of length at least 2, in order. -/
def tokenize (l : List Char) : List (List Char) :=
  (runsAux [] l).filter fun t => decide (2 ≤ t.length)

/-- The bigrams of a token list: adjacent pairs joined by a space, as
sklearn's `_word_ngrams` builds them. -/
def bigrams : List (List Char) → List (List Char)
  | t1 :: t2 :: rest => (t1 ++ ' ' :: t2) :: bigrams (t2 :: rest)
  | _ => []

/-- `ngram_range=(1, 2)`: unigrams followed by bigrams. -/
def ngrams12 (toks : List (List Char)) : List (List Char) := toks ++ bigrams toks

/-- The source's `combined_features` for one product: the space-join of
`jenis_kulit_kompatibel`, `sub_kategori`, `manfaat`, `klaim`, lower-cased. -/
def combinedFeatures (p : Product) : List Char :=
  lcList (p.jenis_kulit ++ ' ' :: p.sub_kategori ++ ' ' :: p.manfaat ++
    ' ' :: p.klaim)

/-- The vectorizer's term multiset (as an ordered list) for one product. -/
def docOf (p : Product) : List (List Char) :=
  ngrams12 (tokenize (combinedFeatures p))

/-- The corpus fed to `TfidfVectorizer.fit_transform`. -/
def corpusOf (catalog : List Product) : List (List (List Char)) :=
  catalog.map docOf

/-- Raw term frequency: the count of term `t` in document `d`. -/
def tf (d : List (List Char)) (t : List Char) : ℕ := d.count t

/-- Document frequency of term `t` in the corpus. -/
def docFreq (docs : List (List (List Char))) (t : List Char) : ℕ :=
  (docs.filter fun d => decide (t ∈ d)).length

/-- Smoothed inverse document frequency of `TfidfVectorizer`
(`smooth_idf=True`): `ln((1 + n) / (1 + df)) + 1`, always at least 1. -/
noncomputable def idf (docs : List (List (List Char))) (t : List Char) : ℝ :=
  Real.log ((1 + docs.length) / (1 + docFreq docs t)) + 1

/-- The (unnormalised) tf-idf weight of term `t` in document `d`.
`TfidfVectorizer(norm="l2")` L2-normalises rows and `cosine_similarity`
normalises again; in exact arithmetic that composition equals the cosine of
these raw weight vectors, which is how the matrix entries are defined
below. -/
noncomputable def tfidfW (docs : List (List (List Char)))
    (d : List (List Char)) (t : List Char) : ℝ :=
  (tf d t : ℝ) * idf docs t

/-- The corpus's term universe: every unigram and bigram occurring in some
document.  The vectorizer's fitted vocabulary is a subset of this set
(`isFittedVocab` below); it is the whole set exactly when the corpus stays
under the `max_features=1000` cap. -/
def vocabOf (docs : List (List (List Char))) : Finset (List Char) :=
  docs.flatten.toFinset

/-- What `TfidfVectorizer(max_features=1000).fit` determines about its
fitted vocabulary without reproducing NumPy internals: every fitted term
occurs in the corpus, and when the corpus has at most 1000 distinct
unigrams/bigrams (the cap not binding, as for the built-in seed catalog)
the fitted vocabulary is exactly the whole term universe.  When the corpus
exceeds the cap, sklearn keeps 1000 terms of maximal corpus frequency with
ties broken by an unstable argsort, so the exact fitted set is not
determined by the corpus alone; the theorems below therefore quantify over
every vocabulary satisfying this predicate, which holds of every run of
the program. -/
def isFittedVocab (docs : List (List (List Char)))
    (vocab : Finset (List Char)) : Prop :=
  vocab ⊆ vocabOf docs ∧ ((vocabOf docs).card ≤ 1000 → vocab = vocabOf docs)

instance (docs : List (List (List Char))) (vocab : Finset (List Char)) :
    Decidable (isFittedVocab docs vocab) :=
  inferInstanceAs (Decidable (vocab ⊆ vocabOf docs ∧
    ((vocabOf docs).card ≤ 1000 → vocab = vocabOf docs)))

/-- Dot product of two term-weight vectors over the vocabulary. -/
noncomputable def dotW (vocab : Finset (List Char)) (u v : List Char → ℝ) : ℝ :=
  ∑ t ∈ vocab, u t * v t

/-- The cosine denominator factor per vector, with a zero norm replaced by 1
exactly as sklearn's `normalize` does (so zero vectors stay zero instead of
dividing by zero). -/
noncomputable def safeNorm (vocab : Finset (List Char)) (u : List Char → ℝ) : ℝ :=
  if dotW vocab u u = 0 then 1 else Real.sqrt (dotW vocab u u)

/-- Cosine similarity of two weight vectors. -/
noncomputable def cosSim (vocab : Finset (List Char)) (u v : List Char → ℝ) : ℝ :=
  dotW vocab u v / (safeNorm vocab u * safeNorm vocab v)

/-- One entry of the similarity matrix for documents `d`, `e`. -/
noncomputable def simEnt (docs : List (List (List Char)))
    (vocab : Finset (List Char)) (d e : List (List Char)) : ℝ :=
  cosSim vocab (tfidfW docs d) (tfidfW docs e)

/-- Embedding of `BeautyProductRecommendationSystem.build_similarity_matrix`:
`cosine_similarity` of the tf-idf representation of the corpus over the
vectorizer's fitted vocabulary, as an N×N nested list index-aligned with
the catalog.  The fitted vocabulary is passed as a parameter because above
the `max_features=1000` cap its exact contents depend on NumPy argsort
internals; theorems quantify over every `vocab` with
`isFittedVocab (corpusOf catalog) vocab`, covering each possible run.  (On
an all-empty corpus sklearn raises "empty vocabulary" before any matrix
exists; the embedding's value there is immaterial because no state with
such a matrix arises.) -/
noncomputable def build_similarity_matrix (catalog : List Product)
    (vocab : Finset (List Char)) : List (List ℝ) :=
  let docs := corpusOf catalog
  docs.map fun d => docs.map fun e => simEnt docs vocab d e

def demoP0 : Product := ⟨[], [], [], [], none⟩

def demoP1 : Product := ⟨"kering".toList, "toner".toList, [], [], some 5⟩

/-- The demo catalog's fitted vocabulary: the corpus has far fewer than
1000 terms, so the vectorizer fits the whole term universe. -/
def demoVocab : Finset (List Char) := vocabOf (corpusOf [demoP0, demoP1])

theorem char_toNat_ofNat_small {m : ℕ} (h : m < 0xd800) :
    (Char.ofNat m).toNat = m := by
  have hv : Nat.isValidChar m := Or.inl h
  rw [Char.ofNat, dif_pos hv]
  simp [Char.ofNatAux, Char.toNat, UInt32.ofNat', UInt32.toNat]

theorem lcChar_idem (c : Char) : lcChar (lcChar c) = lcChar c := by
  unfold lcChar Char.toLower
  by_cases h : 65 ≤ c.toNat ∧ c.toNat ≤ 90
  · rw [if_pos h]
    have ht : (Char.ofNat (c.toNat + 32)).toNat = c.toNat + 32 :=
      char_toNat_ofNat_small (by omega)
    rw [if_neg (by rw [ht]; omega)]
  · rw [if_neg h, if_neg h]

theorem lcList_fixed_of_mem {l : List Char} (h : ∀ c ∈ l, lcChar c = c) :
    lcList l = l := by
  induction l with
  | nil => rfl
  | cons c cs ih =>
    simp only [lcList, List.map_cons]
    exact congrArg₂ _ (h c (by simp)) (ih fun d hd => h d (by simp [hd]))

theorem beginsWith_append {pat p : List Char} (r : List Char)
    (h : beginsWith pat p = true) : beginsWith pat (p ++ r) = true := by
  induction pat generalizing p with
  | nil => rfl
  | cons a as ih =>
    cases p with
    | nil => simp [beginsWith] at h
    | cons b bs =>
      simp only [beginsWith, Bool.and_eq_true, beq_iff_eq] at h ⊢
      exact ⟨h.1, ih h.2⟩

theorem hasSub_cons {pat cs : List Char} (c : Char)
    (h : hasSub pat cs = true) : hasSub pat (c :: cs) = true := by
  simp [hasSub, h]

theorem hasSub_append_left {pat r : List Char} (l : List Char)
    (h : hasSub pat r = true) : hasSub pat (l ++ r) = true := by
  induction l with
  | nil => exact h
  | cons c cs ih => exact hasSub_cons c ih

theorem hasSub_append_right {pat p : List Char} (r : List Char)
    (h : hasSub pat p = true) : hasSub pat (p ++ r) = true := by
  induction p with
  | nil =>
    have : pat = [] := by simpa [hasSub, List.isEmpty_iff] using h
    subst this
    cases r <;> simp [hasSub, beginsWith]
  | cons c cs ih =>
    simp only [hasSub, Bool.or_eq_true] at h
    rcases h with hb | hr
    · simp only [List.cons_append, hasSub, Bool.or_eq_true]
      exact Or.inl (by simpa using beginsWith_append r hb)
    · exact hasSub_cons c (ih hr)

theorem hasSub_of_drop {pat : List Char} (k : ℕ) (l : List Char)
    (h : hasSub pat (l.drop k) = true) : hasSub pat l = true := by
  have := hasSub_append_left (l.take k) h
  rwa [List.take_append_drop] at this

theorem hasSub_of_dropWhile {pat : List Char} (q : Char → Bool) (l : List Char)
    (h : hasSub pat (l.dropWhile q) = true) : hasSub pat l = true := by
  have := hasSub_append_left (l.takeWhile q) h
  rwa [List.takeWhile_append_dropWhile] at this

theorem hasSub_of_pyStrip {pat l : List Char}
    (h : hasSub pat (pyStrip l) = true) : hasSub pat l = true := by
  unfold pyStrip at h
  have hm : ((l.dropWhile pySpace).reverse.dropWhile pySpace).reverse ++
      ((l.dropWhile pySpace).reverse.takeWhile pySpace).reverse =
      l.dropWhile pySpace := by
    rw [← List.reverse_append, List.takeWhile_append_dropWhile, List.reverse_reverse]
  have h2 : hasSub pat (l.dropWhile pySpace) = true := by
    rw [← hm]; exact hasSub_append_right _ h
  exact hasSub_of_dropWhile pySpace l h2

theorem beginsWith_rmFuel {ps : List Char} (hw : ∀ c ∈ ps, wordChar c = true) :
    ∀ (f : ℕ) (cs : List Char),
      beginsWith ps (rmFuel f true cs) = true → beginsWith ps cs = true := by
  induction ps with
  | nil => intro f cs _; rfl
  | cons p ps ih =>
    intro f cs h
    cases f with
    | zero => simpa [rmFuel] using h
    | succ f =>
      cases cs with
      | nil => simp [rmFuel, beginsWith] at h
      | cons d ds =>
        rw [rmFuel] at h
        simp only [Bool.not_true, Bool.false_and, Bool.and_eq_true, if_neg,
          Bool.false_eq_true, not_false_eq_true, if_false] at h
        simp only [beginsWith, Bool.and_eq_true, beq_iff_eq] at h ⊢
        obtain ⟨hpd, hrest⟩ := h
        have hwd : wordChar d = true := hpd ▸ hw p (by simp)
        rw [hwd] at hrest
        exact ⟨hpd, ih (fun c hc => hw c (by simp [hc])) f ds hrest⟩

theorem hasSub_rmFuel {pat : List Char} (hw : ∀ c ∈ pat, wordChar c = true) :
    ∀ (f : ℕ) (w : Bool) (l : List Char),
      hasSub pat (rmFuel f w l) = true → hasSub pat l = true := by
  intro f
  induction f with
  | zero => intro w l h; simpa [rmFuel] using h
  | succ f ih =>
    intro w l h
    cases l with
    | nil => simpa [rmFuel] using h
    | cons c cs =>
      rw [rmFuel] at h
      split at h
      · exact hasSub_cons c (hasSub_of_drop 4 cs (ih true _ h))
      all_goals split at h
      · exact hasSub_cons c (hasSub_of_drop 2 cs (ih true _ h))
      · simp only [hasSub, Bool.or_eq_true] at h ⊢
        rcases h with hb | hr
        · cases pat with
          | nil => left; rfl
          | cons p ps =>
            simp only [beginsWith, Bool.and_eq_true, beq_iff_eq] at hb ⊢
            obtain ⟨hpc, hrest⟩ := hb
            have hwc : wordChar c = true := hpc ▸ hw p (by simp)
            rw [hwc] at hrest
            exact Or.inl ⟨hpc,
              beginsWith_rmFuel (fun d hd => hw d (by simp [hd])) f cs hrest⟩
        · exact Or.inr (ih (wordChar c) cs hr)

theorem hasSub_of_rmKulitDan {pat l : List Char}
    (hw : ∀ c ∈ pat, wordChar c = true)
    (h : hasSub pat (rmKulitDan l) = true) : hasSub pat l = true :=
  hasSub_rmFuel hw _ _ _ h

theorem semua_wordChars : ∀ c ∈ semuaT, wordChar c = true := by decide

/-- If `_canonicalize_skin_token` answers `semua` for a phrase, then the
lower-cased phrase contains the substring "semua": stripping only removes
edge whitespace, and the `\b(kulit|dan)\b` removal cannot create a new
all-word-character substring because every removed segment is flanked by
non-word characters or string ends. -/
theorem canon_semua {part : List Char}
    (h : canonicalize_skin_token part = some semuaT) :
    hasSub semuaT (lcList part) = true := by
  unfold canonicalize_skin_token at h
  by_cases he : part.isEmpty
  · rw [if_pos he] at h; cases h
  · rw [if_neg he] at h
    simp only [] at h
    have hsub : hasSub semuaT (pyStrip (rmKulitDan (pyStrip (lcList part)))) = true →
        hasSub semuaT (lcList part) = true := fun hs =>
      hasSub_of_pyStrip (hasSub_of_rmKulitDan semua_wordChars (hasSub_of_pyStrip hs))
    split at h
    · have ht := Option.some.inj h
      exact hsub (ht ▸ (by decide : hasSub semuaT semuaT = true))
    · split at h
      · exact hsub (by assumption)
      · split at h
        · exact absurd (Option.some.inj h) (by decide)
        · split at h
          · exact absurd (Option.some.inj h) (by decide)
          · split at h
            · exact absurd (Option.some.inj h) (by decide)
            · split at h
              · exact absurd (Option.some.inj h) (by decide)
              · split at h
                · exact absurd (Option.some.inj h) (by decide)
                · split at h
                  · exact absurd (Option.some.inj h) (by decide)
                  · cases h

theorem mem_splitAux_hasSub {pat part : List Char} :
    ∀ (l cur : List Char), part ∈ splitAux cur l → hasSub pat part = true →
      hasSub pat (cur.reverse ++ l) = true := by
  intro l
  induction l with
  | nil =>
    intro cur hm hs
    simp only [splitAux, List.mem_singleton] at hm
    subst hm
    simpa using hasSub_append_right [] hs
  | cons c cs ih =>
    intro cur hm hs
    rw [splitAux] at hm
    split at hm
    · rcases List.mem_cons.mp hm with h1 | h2
      · subst h1; exact hasSub_append_right _ hs
      · have := ih [] h2 hs
        simp only [List.reverse_nil, List.nil_append] at this
        exact hasSub_append_left _ (hasSub_cons c this)
    · have := ih (c :: cur) hm hs
      simpa [List.append_assoc] using this

theorem mem_splitDelims_hasSub {pat part text : List Char}
    (hm : part ∈ splitDelims text) (hs : hasSub pat part = true) :
    hasSub pat text = true := by
  have := mem_splitAux_hasSub text [] hm hs
  simpa using this

theorem splitAux_chars {part : List Char} :
    ∀ (l cur : List Char), part ∈ splitAux cur l →
      ∀ c ∈ part, c ∈ cur ∨ c ∈ l := by
  intro l
  induction l with
  | nil =>
    intro cur hm c hc
    simp only [splitAux, List.mem_singleton] at hm
    subst hm
    exact Or.inl (List.mem_reverse.mp hc)
  | cons d ds ih =>
    intro cur hm c hc
    rw [splitAux] at hm
    split at hm
    · rcases List.mem_cons.mp hm with h1 | h2
      · subst h1; exact Or.inl (List.mem_reverse.mp hc)
      · rcases ih [] h2 c hc with h | h
        · cases h
        · exact Or.inr (by simp [h])
    · rcases ih (d :: cur) hm c hc with h | h
      · rcases List.mem_cons.mp h with h1 | h1
        · exact Or.inr (by simp [h1])
        · exact Or.inl h1
      · exact Or.inr (by simp [h])

theorem part_lc_fixed {raw part : List Char}
    (hm : part ∈ splitDelims (lcList raw)) : lcList part = part := by
  refine lcList_fixed_of_mem fun c hc => ?_
  rcases splitAux_chars (lcList raw) [] hm c hc with h | h
  · cases h
  · obtain ⟨d, _, rfl⟩ := List.mem_map.mp h
    exact lcChar_idem d

/-- C3: for every raw skin-type input (a missing/NaN value included),
`_parse_skin_tokens` returns a non-empty set of canonical tokens; an absent
input gives exactly the singleton (semua), and so does any input whose split
phrases all fail to canonicalize (the fail-open rule). -/
theorem C3_parse_skin_tokens_nonempty_failopen :
    ∀ s : Option (List Char),
      (parse_skin_tokens s).Nonempty ∧
      (s = none → parse_skin_tokens s = {semuaT}) ∧
      (∀ raw, s = some raw →
        (splitDelims (lcList raw)).filterMap canonicalize_skin_token = [] →
        parse_skin_tokens s = {semuaT}) := by
  intro s
  refine ⟨?_, ?_, ?_⟩
  · cases s with
    | none => exact ⟨semuaT, by simp [parse_skin_tokens]⟩
    | some raw =>
      simp only [parse_skin_tokens]
      split
      · exact ⟨semuaT, by simp⟩
      · split
        · exact ⟨semuaT, by simp⟩
        · rename_i hne
          rcases hlist : (splitDelims (lcList raw)).filterMap canonicalize_skin_token
            with _ | ⟨x, xs⟩
          · rw [hlist] at hne; simp at hne
          · exact ⟨x, by simp [hlist]⟩
  · rintro rfl; rfl
  · rintro raw rfl hempty
    simp only [parse_skin_tokens]
    split
    · rfl
    · rw [hempty]
      rfl

/-- C3 witness: a concrete unparseable input takes the fail-open branch. -/
theorem C3_witness :
    ((splitDelims (lcList "qq".toList)).filterMap canonicalize_skin_token = []) ∧
      parse_skin_tokens (some "qq".toList) = {semuaT} :=
  ⟨by decide,
    (C3_parse_skin_tokens_nonempty_failopen (some "qq".toList)).2.2 _ rfl (by decide)⟩

/-- C7 counterexample: the unparseable raw text "xyz" contains no "all" or
"semua" signal at all, yet fail-open puts `semua` into its token set, so
"semua in SkinTokenSet implies the raw text contained an all/semua signal"
is false as stated. -/
theorem C7_counterexample :
    semuaT ∈ parse_skin_tokens (some "xyz".toList) ∧
      hasAllSignal "xyz".toList = false := by decide

/-- C7 amended: `semua` can enter a Product's token set only because the
input was absent, or the lower-cased text contained the substring "semua",
or no split phrase canonicalized to any token (the fail-open rule).  (The
claim as stated omits the fail-open source.) -/
theorem C7_semua_requires_semua_or_failopen :
    ∀ raw, semuaT ∈ parse_skin_tokens (some raw) →
      hasSub semuaT (lcList raw) = true ∨
        (splitDelims (lcList raw)).filterMap canonicalize_skin_token = [] := by
  intro raw h
  simp only [parse_skin_tokens] at h
  split at h
  · exact Or.inl (by assumption)
  · split at h
    · rename_i hempty
      exact Or.inr (by simpa [List.isEmpty_iff] using hempty)
    · rename_i hno _
      exfalso
      apply hno
      rcases List.mem_filterMap.mp (List.mem_toFinset.mp h) with ⟨part, hpart, hcanon⟩
      have h1 : hasSub semuaT (lcList part) = true := canon_semua hcanon
      rw [part_lc_fixed hpart] at h1
      exact mem_splitDelims_hasSub hpart h1

/-- C7 witness: a concrete application of the amended round-trip theorem. -/
theorem C7_witness :
    semuaT ∈ parse_skin_tokens (some "abc".toList) ∧
      (hasSub semuaT (lcList "abc".toList) = true ∨
        (splitDelims (lcList "abc".toList)).filterMap canonicalize_skin_token = []) :=
  ⟨by decide, C7_semua_requires_semua_or_failopen _ (by decide)⟩

/-- C8 counterexample: "all, oily" contains the word "all", but the parser
does not short-circuit on "all" (only on "semua"): the phrase "oily" still
canonicalizes, and the result is the singleton (berminyak), not (semua). -/
theorem C8_counterexample :
    hasSub allT (lcList "all, oily".toList) = true ∧
      parse_skin_tokens (some "all, oily".toList) = {berminyakT} ∧
      parse_skin_tokens (some "all, oily".toList) ≠ {semuaT} := by decide

/-- C8 amended: only a text containing the substring "semua" short-circuits
`_parse_skin_tokens` to exactly the singleton (semua), other phrases
notwithstanding; a text containing "all" gets no special handling and
reaches (semua) only via fail-open when nothing canonicalizes. -/
theorem C8_semua_shortcircuits :
    ∀ raw, hasSub semuaT (lcList raw) = true →
      parse_skin_tokens (some raw) = {semuaT} := by
  intro raw h
  simp only [parse_skin_tokens]
  rw [if_pos h]

/-- C8 witness: the spec's own scenario "Semua jenis kulit". -/
theorem C8_witness :
    hasSub semuaT (lcList "Semua jenis kulit".toList) = true ∧
      parse_skin_tokens (some "Semua jenis kulit".toList) = {semuaT} :=
  ⟨by decide, C8_semua_shortcircuits _ (by decide)⟩

/-- C4: `find_compatible_products` keeps exactly the rows whose token set
contains `semua` or the token obtained by normalizing the user string, in
catalog order (strictly increasing row positions); in particular filtering
"oily" over a catalog tagged (semua) and (kering) keeps only the (semua)
row. -/
theorem C4_find_compatible_products_spec :
    (∀ (tokenSets : List (Finset (List Char))) (user : List Char),
      (∀ i : ℕ, i ∈ find_compatible_products tokenSets user ↔
        ∃ ts, tokenSets[i]? = some ts ∧
          (semuaT ∈ ts ∨ normalize_skin_type user ∈ ts)) ∧
      (find_compatible_products tokenSets user).Pairwise (· < ·)) ∧
    find_compatible_products [{semuaT}, {keringT}] "oily".toList = [0] := by
  refine ⟨fun tokenSets user => ⟨fun i => ?_, ?_⟩, by decide⟩
  · unfold find_compatible_products
    simp only [List.mem_map, List.mem_filter]
    constructor
    · rintro ⟨⟨j, ts⟩, ⟨hmem, hp⟩, rfl⟩
      refine ⟨ts, List.mk_mem_enum_iff_getElem?.mp hmem, ?_⟩
      simpa using hp
    · rintro ⟨ts, hget, hor⟩
      refine ⟨(i, ts), ⟨List.mk_mem_enum_iff_getElem?.mpr hget, ?_⟩, rfl⟩
      simpa using hor
  · unfold find_compatible_products
    have h1 : List.Sublist ((tokenSets.enum.filter
        (fun p => decide (semuaT ∈ p.2) ||
          decide (normalize_skin_type user ∈ p.2))).map Prod.fst)
        (tokenSets.enum.map Prod.fst) :=
      (List.filter_sublist _).map _
    rw [List.enum_map_fst] at h1
    exact List.Pairwise.sublist h1 (List.pairwise_lt_range _)

/-- C4 witness: the (semua) row satisfies the membership characterization. -/
theorem C4_witness :
    (∃ ts, ([{semuaT}, {keringT}] : List (Finset (List Char)))[0]? = some ts ∧
      (semuaT ∈ ts ∨ normalize_skin_type "oily".toList ∈ ts)) ∧
    0 ∈ find_compatible_products [{semuaT}, {keringT}] "oily".toList :=
  ⟨⟨{semuaT}, by decide, Or.inl (by decide)⟩,
   ((C4_find_compatible_products_spec.1 _ _).1 0).mpr
     ⟨{semuaT}, by decide, Or.inl (by decide)⟩⟩

theorem mem_of_mem_insertDesc {α : Type} [LinearOrder α]
    {y x : ℤ × α × Product} {l : List (ℤ × α × Product)}
    (h : y ∈ insertDesc x l) : y = x ∨ y ∈ l := by
  induction l with
  | nil => simpa [insertDesc] using h
  | cons z zs ih =>
    rw [insertDesc] at h
    split at h
    · rcases List.mem_cons.mp h with h1 | h1
      · exact Or.inl h1
      · exact Or.inr h1
    · rcases List.mem_cons.mp h with h1 | h1
      · exact Or.inr (by simp [h1])
      · rcases ih h1 with h2 | h2
        · exact Or.inl h2
        · exact Or.inr (by simp [h2])

theorem insertDesc_pairwise {α : Type} [LinearOrder α] (x : ℤ × α × Product)
    {l : List (ℤ × α × Product)} (hl : l.Pairwise (fun a b => b.2.1 ≤ a.2.1)) :
    (insertDesc x l).Pairwise (fun a b => b.2.1 ≤ a.2.1) := by
  induction l with
  | nil => simp [insertDesc]
  | cons z zs ih =>
    rw [insertDesc]
    rcases List.pairwise_cons.mp hl with ⟨hz, hzs⟩
    split
    · rename_i hc
      refine List.pairwise_cons.mpr ⟨?_, hl⟩
      intro b hb
      rcases List.mem_cons.mp hb with rfl | hb2
      · exact hc
      · exact le_trans (hz b hb2) hc
    · rename_i hc
      refine List.pairwise_cons.mpr ⟨?_, ih hzs⟩
      intro b hb
      rcases mem_of_mem_insertDesc hb with rfl | hb2
      · exact (not_le.mp hc).le
      · exact hz b hb2

theorem sortDesc_pairwise {α : Type} [LinearOrder α]
    (l : List (ℤ × α × Product)) :
    (sortDesc l).Pairwise (fun a b => b.2.1 ≤ a.2.1) := by
  induction l with
  | nil => simp [sortDesc]
  | cons x xs ih => exact insertDesc_pairwise x ih

theorem mem_of_mem_sortDesc {α : Type} [LinearOrder α]
    {y : ℤ × α × Product} {l : List (ℤ × α × Product)}
    (h : y ∈ sortDesc l) : y ∈ l := by
  induction l with
  | nil => simpa [sortDesc] using h
  | cons x xs ih =>
    rcases mem_of_mem_insertDesc h with rfl | h2
    · simp
    · simp [ih h2]

theorem foldl_max_lt {n : ℤ} :
    ∀ (cs : List ℤ) (c : ℤ), c < n → (∀ i ∈ cs, i < n) → cs.foldl max c < n := by
  intro cs
  induction cs with
  | nil => intro c hc _; exact hc
  | cons d ds ih =>
    intro c hc h
    exact ih (max c d) (max_lt hc (h d (by simp))) fun i hi => h i (by simp [hi])

theorem pyMax_lt {l : List ℤ} {n : ℤ} (hne : l ≠ [])
    (h : ∀ i ∈ l, i < n) : pyMax l < n := by
  cases l with
  | nil => exact absurd rfl hne
  | cons c cs =>
    exact foldl_max_lt cs c (h c (by simp)) fun i hi => h i (by simp [hi])

theorem le_foldl_max : ∀ (cs : List ℤ) (c : ℤ),
    c ≤ cs.foldl max c ∧ ∀ i ∈ cs, i ≤ cs.foldl max c := by
  intro cs
  induction cs with
  | nil => simp
  | cons d ds ih =>
    intro c
    refine ⟨le_trans (le_max_left c d) (ih (max c d)).1, ?_⟩
    intro i hi
    rcases List.mem_cons.mp hi with rfl | h2
    · exact le_trans (le_max_right c i) (ih (max c i)).1
    · exact (ih (max c d)).2 i h2

theorem mem_le_pyMax {i : ℤ} {l : List ℤ} (h : i ∈ l) : i ≤ pyMax l := by
  cases l with
  | nil => cases h
  | cons c cs =>
    rcases List.mem_cons.mp h with rfl | h2
    · exact (le_foldl_max cs i).1
    · exact (le_foldl_max cs c).2 i h2

/-- C5 counterexample: a negative candidate index is out of range for the
catalog, but instead of the claimed "empty result, no exception" the source
raises: the guard `max(subset_indices) >= len(products_df)` passes for `-1`,
and `products_df.loc[[-1]]` then raises `KeyError` (modelled as `none`). -/
theorem C5_counterexample :
    rank_on_subset (α := ℚ) [⟨[], [], [], [], some 4⟩] (some [[1]]) [-1] 5 =
      none := by decide

/-- C5 amended: for every catalog, matrix, candidate list and positive
top_n, any normal return of `rank_on_subset` has length at most top_n and
descending scores; the result is the empty list when the candidate list is
empty or some candidate index is at least the catalog size (out of range
above); and a normal return is guaranteed whenever every index is in the
0..N-1 range.  (Out-of-range-below, i.e. negative, indices raise instead of
returning empty, which is the only correction to the claim.) -/
theorem C5_rank_length_sorted_guard :
    ∀ {α : Type} [inst : LinearOrderedField α] (products : List Product)
      (sim : List (List α)) (subset : List ℤ) (top_n : ℕ), 0 < top_n →
      (∀ r, rank_on_subset products (some sim) subset top_n = some r →
        r.length ≤ top_n ∧ r.Pairwise (fun a b => b.2.1 ≤ a.2.1)) ∧
      (subset = [] → rank_on_subset products (some sim) subset top_n = some []) ∧
      ((∃ i ∈ subset, (products.length : ℤ) ≤ i) →
        rank_on_subset products (some sim) subset top_n = some []) ∧
      ((∀ i ∈ subset, 0 ≤ i ∧ i < (products.length : ℤ)) →
        ∃ r, rank_on_subset products (some sim) subset top_n = some r) := by
  intro α inst products sim subset top_n _
  refine ⟨?_, ?_, ?_, ?_⟩
  · intro r hr
    simp only [rank_on_subset] at hr
    split at hr
    · obtain rfl := Option.some.inj hr
      simp
    · split at hr
      · obtain rfl := Option.some.inj hr
        simp
      · split at hr
        · cases hr
        · obtain rfl := Option.some.inj hr
          constructor
          · exact List.length_take_le _ _
          · exact List.Pairwise.sublist (List.take_sublist _ _) (sortDesc_pairwise _)
  · rintro rfl
    rfl
  · rintro ⟨i, hi, hlen⟩
    have hne : subset ≠ [] := fun h => by subst h; cases hi
    simp only [rank_on_subset]
    rw [if_neg (by simpa [List.isEmpty_iff] using hne)]
    rw [if_pos (le_trans hlen (mem_le_pyMax hi))]
  · intro hall
    by_cases hsub : subset = []
    · subst hsub
      exact ⟨[], rfl⟩
    · simp only [rank_on_subset]
      rw [if_neg (by simpa [List.isEmpty_iff] using hsub)]
      rw [if_neg (not_le.mpr (pyMax_lt hsub fun i hi => (hall i hi).2))]
      rw [if_neg ?_]
      · exact ⟨_, rfl⟩
      · simp only [List.any_eq_true, not_exists]
        rintro i ⟨hi, hneg⟩
        exact absurd (of_decide_eq_true hneg) (not_lt.mpr (hall i hi).1)

/-- C5 witness: a fully in-range call returns normally. -/
theorem C5_witness :
    (0 < 5) ∧
    (∀ i ∈ [(0 : ℤ)], 0 ≤ i ∧ i < (([⟨[], [], [], [], some 4⟩] : List Product).length : ℤ)) ∧
    (∃ r, rank_on_subset (α := ℚ) [⟨[], [], [], [], some 4⟩] (some [[1]]) [0] 5 = some r) :=
  ⟨by decide, by decide,
    (C5_rank_length_sorted_guard [⟨[], [], [], [], some 4⟩] [[1]] [0] 5
      (by decide)).2.2.2 (by decide)⟩

/-- C10: calling the ranker before `build_similarity_matrix` has run (the
stored matrix is still `None`) returns the empty list rather than raising. -/
theorem C10_rank_without_matrix :
    ∀ {α : Type} [inst : LinearOrderedField α] (products : List Product)
      (subset : List ℤ) (top_n : ℕ),
      rank_on_subset (α := α) products none subset top_n = some [] := by
  intro α inst products subset top_n
  simp only [rank_on_subset]
  split <;> rfl

/-- C10 witness: a concrete instance of the no-matrix early return. -/
theorem C10_witness :
    rank_on_subset (α := ℚ) [] none [3] 7 = some [] :=
  C10_rank_without_matrix [] [3] 7

theorem getCol_setCol_self (cols : List (List Char × List Cell))
    (name : List Char) (vals : List Cell) :
    getCol (setCol cols name vals) name = some vals := by
  induction cols with
  | nil => simp [setCol, getCol]
  | cons p rest ih =>
    rw [setCol]
    split
    · simp [getCol]
    · rename_i hne
      rw [getCol, if_neg hne]
      exact ih

theorem getCol_setCol_ne (cols : List (List Char × List Cell))
    (name : List Char) (vals : List Cell) (c : List Char) (h : c ≠ name) :
    getCol (setCol cols name vals) c = getCol cols c := by
  have hnc : name ≠ c := Ne.symm h
  induction cols with
  | nil => simp [setCol, getCol, hnc]
  | cons p rest ih =>
    rw [setCol]
    by_cases hp : p.1 = name
    · rw [if_pos hp]
      have hpc : ¬ p.1 = c := by rw [hp]; exact hnc
      simp [getCol, hnc, hpc]
    · rw [if_neg hp]
      by_cases hpc : p.1 = c
      · simp [getCol, hpc]
      · simp [getCol, hpc, ih]

theorem getCol_mapCol (cols : List (List Char × List Cell)) (name : List Char)
    (f : Cell → Cell) (c : List Char) :
    getCol (mapCol cols name f) c =
      if c = name then Option.map (List.map f) (getCol cols c)
      else getCol cols c := by
  induction cols with
  | nil => rw [mapCol, getCol]; split <;> rfl
  | cons p rest ih =>
    rw [mapCol]
    by_cases hp : p.1 = name
    · rw [if_pos hp]
      by_cases hpc : p.1 = c
      · have hcn : c = name := hpc ▸ hp
        simp [getCol, hpc, hcn]
      · have hcn : ¬ c = name := fun hh => hpc (by rw [hp, hh])
        simp [getCol, hpc, hcn, ih]
    · rw [if_neg hp]
      by_cases hpc : p.1 = c
      · have hcn : ¬ c = name := fun hh => hp (by rw [hpc, hh])
        simp [getCol, hpc, hcn]
      · simp [getCol, hpc, ih]

theorem hasCol_mapCol (cols : List (List Char × List Cell)) (name : List Char)
    (f : Cell → Cell) (c : List Char) :
    hasCol (mapCol cols name f) c = hasCol cols c := by
  unfold hasCol
  rw [getCol_mapCol]
  split <;> simp

theorem getCol_foldl_fill_of_hasCol {n : ℕ} :
    ∀ (l : List (List Char)) (cols : List (List Char × List Cell))
      (c : List Char), hasCol cols c = true →
      getCol (l.foldl (fillStep n) cols) c = getCol cols c := by
  intro l
  induction l with
  | nil => intro cols c _; rfl
  | cons a rest ih =>
    intro cols c hc
    rw [List.foldl_cons]
    have hstep : getCol (fillStep n cols a) c = getCol cols c ∧
        hasCol (fillStep n cols a) c = true := by
      unfold fillStep
      split
      · exact ⟨rfl, hc⟩
      · rename_i ha
        have hca : c ≠ a := fun h => ha (h ▸ (by simpa using hc))
        refine ⟨getCol_setCol_ne _ _ _ _ hca, ?_⟩
        unfold hasCol
        rw [getCol_setCol_ne _ _ _ _ hca]
        exact hc
    rw [ih _ _ hstep.2, hstep.1]

theorem getCol_foldl_fill_of_absent {n : ℕ} :
    ∀ (l : List (List Char)) (cols : List (List Char × List Cell))
      (c : List Char), hasCol cols c = false → c ∈ l →
      getCol (l.foldl (fillStep n) cols) c =
        some (List.replicate n
          (if c ∈ numericCols then Cell.nan else Cell.strv [])) := by
  intro l
  induction l with
  | nil => intro cols c _ hm; cases hm
  | cons a rest ih =>
    intro cols c hc hm
    rw [List.foldl_cons]
    by_cases hca : c = a
    · subst hca
      have h1 : fillStep n cols c = setCol cols c (List.replicate n
          (if c ∈ numericCols then Cell.nan else Cell.strv [])) := by
        unfold fillStep
        rw [if_neg (by simp [hc])]
      rw [h1]
      have h2 : hasCol (setCol cols c (List.replicate n
          (if c ∈ numericCols then Cell.nan else Cell.strv []))) c = true := by
        unfold hasCol
        rw [getCol_setCol_self]
        rfl
      rw [getCol_foldl_fill_of_hasCol rest _ _ h2, getCol_setCol_self]
    · have hm2 : c ∈ rest := by
        rcases List.mem_cons.mp hm with h | h
        · exact absurd h hca
        · exact h
      have hstep : getCol (fillStep n cols a) c = getCol cols c := by
        unfold fillStep
        split
        · rfl
        · exact getCol_setCol_ne _ _ _ _ hca
      have hc2 : hasCol (fillStep n cols a) c = false := by
        unfold hasCol
        rw [hstep]
        exact hc
      rw [ih _ _ hc2 hm2]

theorem getCol_foldl_mapCol_of_not_mem (f : Cell → Cell) :
    ∀ (l : List (List Char)) (cols : List (List Char × List Cell))
      (c : List Char), c ∉ l →
      getCol (l.foldl (fun cs nm => mapCol cs nm f) cols) c = getCol cols c := by
  intro l
  induction l with
  | nil => intro cols c _; rfl
  | cons a rest ih =>
    intro cols c hm
    rw [List.foldl_cons, ih _ _ (fun h => hm (by simp [h])), getCol_mapCol,
      if_neg (fun h => hm (by simp [h]))]

theorem getCol_foldl_mapCol_of_mem (f : Cell → Cell) :
    ∀ (l : List (List Char)) (cols : List (List Char × List Cell))
      (c : List Char), l.Nodup → c ∈ l →
      getCol (l.foldl (fun cs nm => mapCol cs nm f) cols) c =
        Option.map (List.map f) (getCol cols c) := by
  intro l
  induction l with
  | nil => intro cols c _ hm; cases hm
  | cons a rest ih =>
    intro cols c hnd hm
    rcases List.pairwise_cons.mp hnd with ⟨hna, hnd2⟩
    rw [List.foldl_cons]
    by_cases hca : c = a
    · subst hca
      have hrest : c ∉ rest := fun h => (hna c h) rfl
      rw [getCol_foldl_mapCol_of_not_mem f rest _ _ hrest, getCol_mapCol, if_pos rfl]
    · have hm2 : c ∈ rest := by
        rcases List.mem_cons.mp hm with h | h
        · exact absurd h hca
        · exact h
      rw [ih _ _ hnd2 hm2, getCol_mapCol, if_neg hca]

theorem hasCol_foldl_mapCol (f : Cell → Cell) :
    ∀ (l : List (List Char)) (cols : List (List Char × List Cell))
      (c : List Char),
      hasCol (l.foldl (fun cs nm => mapCol cs nm f) cols) c = hasCol cols c := by
  intro l
  induction l with
  | nil => intro cols c; rfl
  | cons a rest ih =>
    intro cols c
    rw [List.foldl_cons, ih, hasCol_mapCol]

theorem coerceCell_shape (cell : Cell) :
    coerceCell cell = Cell.nan ∨ ∃ q, coerceCell cell = Cell.numv q := by
  cases cell with
  | nan => exact Or.inl rfl
  | numv q => exact Or.inr ⟨q, rfl⟩
  | strv v =>
    rcases h : parseNum v with _ | q
    · exact Or.inl (by simp [coerceCell, h])
    · exact Or.inr ⟨q, by simp [coerceCell, h]⟩

theorem numeric_sub_required : ∀ c ∈ numericCols, c ∈ requiredCols := by decide

theorem numeric_not_strCols : ∀ c ∈ numericCols, c ∉ strCols := by decide

theorem strCols_nodup : strCols.Nodup := by decide

theorem numericCols_nodup : numericCols.Nodup := by decide

theorem idT_not_strCols : idT ∉ strCols := by decide

theorem mem_strCols {c : List Char} (hreq : c ∈ requiredCols)
    (hn : c ∉ numericCols) (hid : c ≠ idT) : c ∈ strCols :=
  List.mem_filter.mpr ⟨hreq, by simp [hn, hid]⟩

/-- C9: `_normalize_schema` is total (no input raises): every canonical
column is present in the output; the numeric canonical columns contain only
numbers or missing values (never raw strings — unparseable content has been
coerced to missing); a canonical column absent after aliasing is created
filled with the empty string (non-numeric columns) or with missing values
(numeric columns); and concretely an unparseable "Price" cell ends as a
missing `harga_idr` value, not an error or a sentinel number. -/
theorem countCol_cons (p : List Char × List Cell)
    (rest : List (List Char × List Cell)) (c : List Char) :
    countCol (p :: rest) c = (if p.1 = c then 1 else 0) + countCol rest c := by
  unfold countCol
  rw [List.filter_cons]
  by_cases h : p.1 = c
  · rw [if_pos (by simp [h]), if_pos h]
    simp only [List.length_cons]
    omega
  · rw [if_neg (by simp [h]), if_neg h]
    omega

theorem countCol_mapCol (cols : List (List Char × List Cell))
    (name : List Char) (f : Cell → Cell) (c : List Char) :
    countCol (mapCol cols name f) c = countCol cols c := by
  induction cols with
  | nil => rfl
  | cons p rest ih =>
    rw [mapCol]
    by_cases hp : p.1 = name
    · rw [if_pos hp, countCol_cons, countCol_cons, ih]
    · rw [if_neg hp, countCol_cons, countCol_cons, ih]

theorem countCol_setCol_ne {cols : List (List Char × List Cell)}
    {name : List Char} {vals : List Cell} {c : List Char} (h : c ≠ name) :
    countCol (setCol cols name vals) c = countCol cols c := by
  induction cols with
  | nil =>
    rw [setCol, countCol_cons, if_neg (Ne.symm h)]
    omega
  | cons p rest ih =>
    rw [setCol]
    by_cases hp : p.1 = name
    · rw [if_pos hp, countCol_cons, countCol_cons,
        if_neg (Ne.symm h), if_neg (by rw [hp]; exact Ne.symm h)]
    · rw [if_neg hp, countCol_cons, countCol_cons, ih]

theorem countCol_setCol_self_of_absent :
    ∀ {cols : List (List Char × List Cell)} {name : List Char}
      {vals : List Cell}, hasCol cols name = false →
      countCol (setCol cols name vals) name = 1 := by
  intro cols
  induction cols with
  | nil => intro name vals _; simp [setCol, countCol]
  | cons p rest ih =>
    intro name vals h
    unfold hasCol getCol at h
    by_cases hp : p.1 = name
    · rw [if_pos hp] at h
      simp at h
    · rw [if_neg hp] at h
      rw [setCol, if_neg hp, countCol_cons, if_neg hp, ih h]

theorem countCol_fillStep_le {n : ℕ} {cols : List (List Char × List Cell)}
    {a c : List Char} (h : countCol cols c ≤ 1) :
    countCol (fillStep n cols a) c ≤ 1 := by
  unfold fillStep
  split
  · exact h
  · rename_i ha
    by_cases hca : c = a
    · subst hca
      rw [countCol_setCol_self_of_absent (by simpa using ha)]
    · rw [countCol_setCol_ne hca]
      exact h

theorem countCol_foldl_fill_le {n : ℕ} :
    ∀ (l : List (List Char)) (cols : List (List Char × List Cell))
      (c : List Char), countCol cols c ≤ 1 →
      countCol (l.foldl (fillStep n) cols) c ≤ 1 := by
  intro l
  induction l with
  | nil => intro cols c h; exact h
  | cons a rest ih =>
    intro cols c h
    rw [List.foldl_cons]
    exact ih _ _ (countCol_fillStep_le h)

theorem coerceFold_eq :
    ∀ (l : List (List Char)) (cols : List (List Char × List Cell)),
      (∀ c ∈ l, countCol cols c ≤ 1) →
      coerceFold l cols =
        some (l.foldl (fun cs nm => mapCol cs nm coerceCell) cols) := by
  intro l
  induction l with
  | nil => intro cols _; rfl
  | cons a rest ih =>
    intro cols h
    rw [coerceFold, List.foldl_cons]
    rw [if_neg (by have := h a (by simp); omega)]
    exact ih _ fun c hc => by rw [countCol_mapCol]; exact h c (by simp [hc])

/-- C9 counterexample: a table whose raw columns "price" and "harga" both
alias to `harga_idr` leaves a duplicated canonical label, so
`pd.to_numeric(df["harga_idr"], errors="coerce")` receives a two-column
DataFrame and raises TypeError (modelled as `none`): `_normalize_schema`
does raise on some malformed input, refuting the claim's universal
"without ever raising". -/
theorem C9_counterexample :
    normalize_schema ⟨1, [("price".toList, [Cell.strv "1".toList]),
      ("harga".toList, [Cell.strv "2".toList])]⟩ = none := by decide

/-- C9 amended: on every input table whose columns do not collide onto a
duplicated canonical numeric name, `_normalize_schema` returns normally
and its output contains every canonical column, the numeric canonical
columns hold only numbers or missing values (never raw strings —
unparseable content is coerced to missing, not an error or a sentinel),
an absent non-numeric canonical column is created empty-string-filled and
an absent numeric one missing-filled; concretely an unparseable "Price"
cell ends as a missing `harga_idr` value.  (Two columns aliasing to one
canonical numeric name raise TypeError at `pd.to_numeric` instead — the
counterexample.) -/
theorem C9_normalize_schema_defaults :
    (∀ t : PyTable,
      (∀ col ∈ numericCols,
        countCol (t.cols.map fun p => (aliasName (cleanName p.1), p.2)) col ≤ 1) →
      ∃ u, normalize_schema t = some u ∧ u.nrows = t.nrows ∧
        (∀ col ∈ requiredCols, hasCol u.cols col = true) ∧
        (∀ col ∈ numericCols, ∀ cells, getCol u.cols col = some cells →
          ∀ cell ∈ cells, cell = Cell.nan ∨ ∃ q, cell = Cell.numv q) ∧
        (∀ col ∈ requiredCols, col ∉ numericCols →
          hasCol (t.cols.map fun p => (aliasName (cleanName p.1), p.2)) col =
            false →
          getCol u.cols col = some (List.replicate t.nrows (Cell.strv []))) ∧
        (∀ col ∈ numericCols,
          hasCol (t.cols.map fun p => (aliasName (cleanName p.1), p.2)) col =
            false →
          getCol u.cols col = some (List.replicate t.nrows Cell.nan))) ∧
    (normalize_schema ⟨1, [("Price".toList, [Cell.strv "abc".toList])]⟩).map
      (fun u => getCol u.cols "harga_idr".toList) = some (some [Cell.nan]) := by
  refine ⟨fun t hdup => ?_, by decide⟩
  have hdup2 : ∀ c ∈ numericCols,
      countCol (requiredCols.foldl (fillStep t.nrows)
        (t.cols.map fun p => (aliasName (cleanName p.1), p.2))) c ≤ 1 := by
    intro c hc
    exact countCol_foldl_fill_le requiredCols _ c (hdup c hc)
  have hco : coerceFold numericCols
      (requiredCols.foldl (fillStep t.nrows)
        (t.cols.map fun p => (aliasName (cleanName p.1), p.2))) =
      some (numericCols.foldl (fun cs nm => mapCol cs nm coerceCell)
        (requiredCols.foldl (fillStep t.nrows)
          (t.cols.map fun p => (aliasName (cleanName p.1), p.2)))) :=
    coerceFold_eq numericCols _ hdup2
  refine ⟨⟨t.nrows, strCols.foldl (fun cols col => mapCol cols col astypeStrFill)
    (numericCols.foldl (fun cs nm => mapCol cs nm coerceCell)
      (requiredCols.foldl (fillStep t.nrows)
        (t.cols.map fun p => (aliasName (cleanName p.1), p.2))))⟩,
    ?_, ?_, ?_, ?_, ?_, ?_⟩
  · rw [normalize_schema, hco, Option.map_some']
  · rfl
  · intro col hreq
    rw [hasCol_foldl_mapCol, hasCol_foldl_mapCol]
    by_cases hp : hasCol (t.cols.map fun p => (aliasName (cleanName p.1), p.2))
        col = true
    · unfold hasCol at hp ⊢
      rw [getCol_foldl_fill_of_hasCol _ _ _ hp]
      exact hp
    · unfold hasCol
      rw [getCol_foldl_fill_of_absent _ _ _ (by simpa using hp) hreq]
      rfl
  · intro col hnum cells hcells cell hcell
    dsimp only at hcells
    rw [getCol_foldl_mapCol_of_not_mem _ _ _ _ (numeric_not_strCols col hnum),
      getCol_foldl_mapCol_of_mem _ _ _ _ numericCols_nodup hnum] at hcells
    rcases hfill : getCol (requiredCols.foldl (fillStep t.nrows)
        (t.cols.map fun p => (aliasName (cleanName p.1), p.2))) col with _ | cells0
    · rw [hfill] at hcells
      cases hcells
    · rw [hfill] at hcells
      obtain rfl := Option.some.inj hcells
      rcases List.mem_map.mp hcell with ⟨x, _, rfl⟩
      exact coerceCell_shape x
  · intro col hreq hnn habs
    dsimp only
    have hfill := getCol_foldl_fill_of_absent (n := t.nrows) requiredCols _ col
      habs hreq
    rw [if_neg hnn] at hfill
    have hcoe : getCol (numericCols.foldl (fun cs nm => mapCol cs nm coerceCell)
        (requiredCols.foldl (fillStep t.nrows)
          (t.cols.map fun p => (aliasName (cleanName p.1), p.2)))) col =
        some (List.replicate t.nrows (Cell.strv [])) := by
      rw [getCol_foldl_mapCol_of_not_mem _ _ _ _ hnn, hfill]
    by_cases hid : col = idT
    · subst hid
      rw [getCol_foldl_mapCol_of_not_mem _ _ _ _ idT_not_strCols, hcoe]
    · rw [getCol_foldl_mapCol_of_mem _ _ _ _ strCols_nodup
        (mem_strCols hreq hnn hid), hcoe]
      simp [List.map_replicate, astypeStrFill, pyStr]
  · intro col hnum habs
    dsimp only
    have hfill := getCol_foldl_fill_of_absent (n := t.nrows) requiredCols _ col
      habs (numeric_sub_required col hnum)
    rw [if_pos hnum] at hfill
    rw [getCol_foldl_mapCol_of_not_mem _ _ _ _ (numeric_not_strCols col hnum),
      getCol_foldl_mapCol_of_mem _ _ _ _ numericCols_nodup hnum, hfill]
    simp [List.map_replicate, coerceCell]

/-- C9 witness: the collision-free "Price"/"abc" table returns normally,
and its absent `rating` column was created missing-valued. -/
theorem C9_witness :
    (∀ col ∈ numericCols,
      countCol ((⟨1, [("Price".toList, [Cell.strv "abc".toList])]⟩ :
          PyTable).cols.map fun p => (aliasName (cleanName p.1), p.2)) col ≤ 1) ∧
    (∃ u, normalize_schema
        ⟨1, [("Price".toList, [Cell.strv "abc".toList])]⟩ = some u ∧
      getCol u.cols "rating".toList = some [Cell.nan]) := by
  refine ⟨by decide, ?_⟩
  obtain ⟨u, hu, hn, _, _, _, h4⟩ := (C9_normalize_schema_defaults.1
    ⟨1, [("Price".toList, [Cell.strv "abc".toList])]⟩) (by decide)
  exact ⟨u, hu, by simpa using h4 "rating".toList (by decide) (by decide)⟩

theorem docFreq_le (docs : List (List (List Char))) (t : List Char) :
    docFreq docs t ≤ docs.length :=
  List.length_filter_le _ _

theorem idf_ge_one (docs : List (List (List Char))) (t : List Char) :
    1 ≤ idf docs t := by
  unfold idf
  have hd : (docFreq docs t : ℝ) ≤ docs.length := Nat.cast_le.mpr (docFreq_le docs t)
  have hpos : (0 : ℝ) < 1 + docFreq docs t := by positivity
  have h1 : (1 : ℝ) ≤ (1 + docs.length) / (1 + docFreq docs t) := by
    rw [le_div_iff hpos]
    linarith
  have h2 := Real.log_nonneg h1
  linarith

theorem tfidfW_nonneg (docs : List (List (List Char))) (d : List (List Char))
    (t : List Char) : 0 ≤ tfidfW docs d t :=
  mul_nonneg (Nat.cast_nonneg _) (le_trans zero_le_one (idf_ge_one docs t))

theorem dotW_nonneg {vocab : Finset (List Char)} {u v : List Char → ℝ}
    (hu : ∀ t, 0 ≤ u t) (hv : ∀ t, 0 ≤ v t) : 0 ≤ dotW vocab u v :=
  Finset.sum_nonneg fun t _ => mul_nonneg (hu t) (hv t)

theorem dotW_self_nonneg (vocab : Finset (List Char)) (u : List Char → ℝ) :
    0 ≤ dotW vocab u u :=
  Finset.sum_nonneg fun t _ => mul_self_nonneg (u t)

theorem safeNorm_pos (vocab : Finset (List Char)) (u : List Char → ℝ) :
    0 < safeNorm vocab u := by
  unfold safeNorm
  split
  · exact one_pos
  · rename_i h
    exact Real.sqrt_pos.mpr (lt_of_le_of_ne (dotW_self_nonneg vocab u) (Ne.symm h))

theorem dotW_symm (vocab : Finset (List Char)) (u v : List Char → ℝ) :
    dotW vocab u v = dotW vocab v u :=
  Finset.sum_congr rfl fun t _ => mul_comm _ _

theorem cosSim_symm (vocab : Finset (List Char)) (u v : List Char → ℝ) :
    cosSim vocab u v = cosSim vocab v u := by
  unfold cosSim
  rw [dotW_symm, mul_comm]

theorem cosSim_nonneg {vocab : Finset (List Char)} {u v : List Char → ℝ}
    (hu : ∀ t, 0 ≤ u t) (hv : ∀ t, 0 ≤ v t) : 0 ≤ cosSim vocab u v :=
  div_nonneg (dotW_nonneg hu hv)
    (le_of_lt (mul_pos (safeNorm_pos _ _) (safeNorm_pos _ _)))

theorem eq_zero_of_dotW_self_eq_zero {vocab : Finset (List Char)}
    {u : List Char → ℝ} (h : dotW vocab u u = 0) : ∀ t ∈ vocab, u t = 0 := by
  intro t ht
  have := (Finset.sum_eq_zero_iff_of_nonneg
    fun t _ => mul_self_nonneg (u t)).mp h t ht
  exact mul_self_eq_zero.mp this

theorem cosSim_le_one {vocab : Finset (List Char)} {u v : List Char → ℝ}
    (hu : ∀ t, 0 ≤ u t) (hv : ∀ t, 0 ≤ v t) : cosSim vocab u v ≤ 1 := by
  unfold cosSim
  by_cases h1 : dotW vocab u u = 0
  · have hz : dotW vocab u v = 0 := by
      unfold dotW
      refine Finset.sum_eq_zero fun t ht => ?_
      rw [eq_zero_of_dotW_self_eq_zero h1 t ht, zero_mul]
    rw [hz, zero_div]
    exact zero_le_one
  · by_cases h2 : dotW vocab v v = 0
    · have hz : dotW vocab u v = 0 := by
        unfold dotW
        refine Finset.sum_eq_zero fun t ht => ?_
        rw [eq_zero_of_dotW_self_eq_zero h2 t ht, mul_zero]
      rw [hz, zero_div]
      exact zero_le_one
    · rw [div_le_one (mul_pos (safeNorm_pos _ _) (safeNorm_pos _ _))]
      unfold safeNorm
      rw [if_neg h1, if_neg h2]
      have hcs := Real.sum_mul_le_sqrt_mul_sqrt vocab u v
      unfold dotW
      simpa [pow_two] using hcs

theorem cosSim_self_one {vocab : Finset (List Char)} {u : List Char → ℝ}
    (h : dotW vocab u u ≠ 0) : cosSim vocab u u = 1 := by
  unfold cosSim safeNorm
  rw [if_neg h, Real.mul_self_sqrt (dotW_self_nonneg vocab u)]
  exact div_self h

theorem dotW_self_pos_of_mem {docs : List (List (List Char))}
    {d : List (List Char)} {vocab : Finset (List Char)} {t0 : List Char}
    (ht0 : t0 ∈ vocab) (hmem : t0 ∈ d) :
    0 < dotW vocab (tfidfW docs d) (tfidfW docs d) := by
  have hterm : 0 < tfidfW docs d t0 := by
    unfold tfidfW tf
    have hc : (0 : ℝ) < d.count t0 := by
      exact_mod_cast List.count_pos_iff_mem.mpr hmem
    exact mul_pos hc (lt_of_lt_of_le one_pos (idf_ge_one docs t0))
  unfold dotW
  calc (0 : ℝ) < tfidfW docs d t0 * tfidfW docs d t0 := mul_pos hterm hterm
    _ ≤ ∑ t ∈ vocab, tfidfW docs d t * tfidfW docs d t :=
        Finset.single_le_sum (fun t _ => mul_self_nonneg (tfidfW docs d t)) ht0

theorem getD_of_lt {γ : Type} (l : List γ) (d : γ) {n : ℕ}
    (h : n < l.length) : l.getD n d = l[n] := by
  rw [List.getD_eq_getElem?_getD, List.getElem?_eq_getElem h, Option.getD_some]

theorem build_entry (catalog : List Product) (vocab : Finset (List Char))
    (i j : ℕ) (hi : i < catalog.length) (hj : j < catalog.length) :
    ((build_similarity_matrix catalog vocab).getD i []).getD j 0 =
      simEnt (corpusOf catalog) vocab
        (docOf (catalog.getD i default)) (docOf (catalog.getD j default)) := by
  have hleni : i < (corpusOf catalog).length := by simpa [corpusOf] using hi
  have hlenj : j < (corpusOf catalog).length := by simpa [corpusOf] using hj
  simp only [build_similarity_matrix]
  have h1 : (List.map (fun d => List.map
      (fun e => simEnt (corpusOf catalog) vocab d e)
      (corpusOf catalog)) (corpusOf catalog)).getD i [] =
      List.map (fun e => simEnt (corpusOf catalog) vocab
        (corpusOf catalog)[i] e) (corpusOf catalog) := by
    rw [getD_of_lt _ _ (by simpa using hleni), List.getElem_map]
  rw [h1, getD_of_lt _ _ (by simpa using hlenj), List.getElem_map]
  simp only [corpusOf, List.getElem_map]
  rw [getD_of_lt _ _ hi, getD_of_lt _ _ hj]

/-- The token-free demo product's diagonal similarity entry evaluates to 0:
its document is empty, so its tf-idf weight vector is identically zero and
`cosine_similarity` keeps the zero row zero. -/
theorem demo_entry00_eq_zero :
    ((build_similarity_matrix [demoP0, demoP1] demoVocab).getD 0 []).getD 0 0 = 0 := by
  have h := build_entry [demoP0, demoP1] demoVocab 0 0 (by decide) (by decide)
  have hdoc : docOf (([demoP0, demoP1] : List Product).getD 0 default) = [] := by decide
  rw [h, hdoc]
  unfold simEnt cosSim
  have hz : dotW demoVocab
      (tfidfW (corpusOf [demoP0, demoP1]) [])
      (tfidfW (corpusOf [demoP0, demoP1]) []) = 0 := by
    unfold dotW tfidfW tf
    simp
  rw [hz, zero_div]

/-- C2 counterexample: in a 2-product catalog whose first product's four
text fields are all empty, the first document has no tokens, its tf-idf
vector is zero, and its diagonal similarity entry is 0, not the claimed
1.0 (`cosine_similarity` keeps zero rows zero).  The corpus is far below
the 1000-term cap, so the fitted vocabulary is exactly `demoVocab`. -/
theorem C2_counterexample :
    0 < ([demoP0, demoP1] : List Product).length ∧
    isFittedVocab (corpusOf [demoP0, demoP1]) demoVocab ∧
    ((build_similarity_matrix [demoP0, demoP1] demoVocab).getD 0 []).getD 0 0 = 0 ∧
    ((build_similarity_matrix [demoP0, demoP1] demoVocab).getD 0 []).getD 0 0 ≠ 1 :=
  ⟨by decide, by decide, demo_entry00_eq_zero,
    by rw [demo_entry00_eq_zero]; norm_num⟩

/-- C2 amended: for every catalog and every vocabulary the vectorizer can
fit for it (`isFittedVocab` covers the `max_features=1000` truncation for
every possible tie-breaking), the similarity matrix is symmetric with all
entries in the interval 0..1, and the diagonal entry of a row is 1.0
whenever that row's combined text contributes at least one term of the
fitted vocabulary; a row none of whose terms survived into the fitted
vocabulary (in particular a token-free row, the counterexample) has a zero
tf-idf vector and diagonal 0 instead. -/
theorem C2_similarity_matrix_props :
    ∀ (catalog : List Product) (vocab : Finset (List Char)),
      isFittedVocab (corpusOf catalog) vocab →
      ∀ (i j : ℕ), i < catalog.length → j < catalog.length →
      (((build_similarity_matrix catalog vocab).getD i []).getD j 0 =
        ((build_similarity_matrix catalog vocab).getD j []).getD i 0) ∧
      0 ≤ ((build_similarity_matrix catalog vocab).getD i []).getD j 0 ∧
      ((build_similarity_matrix catalog vocab).getD i []).getD j 0 ≤ 1 ∧
      ((∃ tk ∈ vocab, tk ∈ docOf (catalog.getD i default)) →
        ((build_similarity_matrix catalog vocab).getD i []).getD i 0 = 1) := by
  intro catalog vocab _hfit i j hi hj
  rw [build_entry catalog vocab i j hi hj, build_entry catalog vocab j i hj hi,
    build_entry catalog vocab i i hi hi]
  refine ⟨?_, ?_, ?_, ?_⟩
  · exact cosSim_symm _ _ _
  · exact cosSim_nonneg (fun t => tfidfW_nonneg _ _ t) fun t => tfidfW_nonneg _ _ t
  · exact cosSim_le_one (fun t => tfidfW_nonneg _ _ t) fun t => tfidfW_nonneg _ _ t
  · rintro ⟨tk, htk, hmem⟩
    exact cosSim_self_one (ne_of_gt (dotW_self_pos_of_mem htk hmem))

/-- C2 witness: the text-bearing demo product has diagonal similarity 1
over the demo catalog's fitted vocabulary. -/
theorem C2_witness :
    (1 < ([demoP0, demoP1] : List Product).length) ∧
    isFittedVocab (corpusOf [demoP0, demoP1]) demoVocab ∧
    (∃ tk ∈ demoVocab,
      tk ∈ docOf (([demoP0, demoP1] : List Product).getD 1 default)) ∧
    ((build_similarity_matrix [demoP0, demoP1] demoVocab).getD 1 []).getD 1 0 = 1 :=
  ⟨by decide, by decide, ⟨"kering".toList, by decide, by decide⟩,
    (C2_similarity_matrix_props [demoP0, demoP1] demoVocab (by decide) 1 1
      (by decide) (by decide)).2.2.2 ⟨"kering".toList, by decide, by decide⟩⟩

/-- Evaluation of the ranker on a singleton candidate list: the single
candidate comes back with mean similarity equal to its own diagonal matrix
entry (the mean over the one-element subset). -/
theorem rank_singleton {α : Type} [inst : LinearOrderedField α]
    (products : List Product) (sim : List (List α)) (i : ℕ)
    (hi : i < products.length) (top_n : ℕ) (htop : 0 < top_n) :
    rank_on_subset products (some sim) [(i : ℤ)] top_n =
      some [((i : ℤ),
        (sim.getD i []).getD i 0 * (3 / 5) +
          (((products.getD i default).rating.getD 3 : ℚ) : α) / 5 * (2 / 5),
        products.getD i default)] := by
  simp only [rank_on_subset]
  rw [if_neg (by simp)]
  rw [if_neg (show ¬ ((products.length : ℤ) ≤ pyMax [(i : ℤ)]) by
    simp only [pyMax, List.foldl_nil, not_le]
    exact_mod_cast hi)]
  rw [if_neg (by simp)]
  cases top_n with
  | zero => omega
  | succ n =>
    simp [sortDesc, insertDesc, List.take, Int.toNat_natCast]

/-- C1 counterexample: ranking the singleton candidate set of the token-free
demo product (with no rating) gives the blended score
0.6 × 0 + 0.4 × (3/5) = 6/25, because the candidate's mean similarity is its
diagonal entry 0, not the 1.0 the claim asserts for singletons (which would
give score 3/5 × 1 + 2/5 × (3/5) = 21/25).  The demo corpus is far below
the 1000-term cap, so `demoVocab` is the run's fitted vocabulary. -/
theorem C1_counterexample :
    isFittedVocab (corpusOf [demoP0, demoP1]) demoVocab ∧
    rank_on_subset [demoP0, demoP1]
      (some (build_similarity_matrix [demoP0, demoP1] demoVocab)) [0] 5 =
      some [(0, (6 : ℝ) / 25, demoP0)] ∧
    ((6 : ℝ) / 25) ≠ 3 / 5 * 1 + 2 / 5 * ((3 : ℝ) / 5) := by
  refine ⟨by decide, ?_, by norm_num⟩
  have h := rank_singleton [demoP0, demoP1]
    (build_similarity_matrix [demoP0, demoP1] demoVocab) 0 (by decide) 5 (by decide)
  rw [demo_entry00_eq_zero] at h
  simpa [demoP0, show (3 : ℝ) / 5 * (2 / 5) = 6 / 25 by norm_num] using h

/-- C1 amended: every entry of a normal ranker return carries exactly the
blended score 0.6 × (mean similarity of that candidate to the whole
candidate subset, itself included) + 0.4 × (rating / 5, missing rating
replaced by 3.0), together with its original index and product record; and
for a matrix built over any vocabulary the vectorizer can fit for the
catalog, a singleton candidate gets mean similarity equal to its diagonal
entry, which is 1.0 whenever that product's combined text contributes at
least one term of the fitted vocabulary (the token-free counterexample row
gets 0 instead). -/
theorem C1_rank_blended_score :
    (∀ {α : Type} [inst : LinearOrderedField α] (products : List Product)
      (sim : List (List α)) (subset : List ℤ) (top_n : ℕ)
      (r : List (ℤ × α × Product)),
      rank_on_subset products (some sim) subset top_n = some r →
      ∀ e ∈ r, e.1 ∈ subset ∧ e.2.1 = blendedSpec sim products subset e.1 ∧
        e.2.2 = products.getD e.1.toNat default) ∧
    (∀ (catalog : List Product) (vocab : Finset (List Char)),
      isFittedVocab (corpusOf catalog) vocab →
      ∀ i : ℕ, i < catalog.length →
      (∃ tk ∈ vocab, tk ∈ docOf (catalog.getD i default)) →
      ∀ top_n : ℕ, 0 < top_n →
      rank_on_subset catalog (some (build_similarity_matrix catalog vocab))
          [(i : ℤ)] top_n =
        some [((i : ℤ),
          3 / 5 * 1 +
            2 / 5 * ((((catalog.getD i default).rating.getD 3 : ℚ) : ℝ) / 5),
          catalog.getD i default)]) := by
  constructor
  · intro α inst products sim subset top_n r hr e he
    simp only [rank_on_subset] at hr
    split at hr
    · obtain rfl := Option.some.inj hr
      cases he
    · split at hr
      · obtain rfl := Option.some.inj hr
        cases he
      · split at hr
        · cases hr
        · obtain rfl := Option.some.inj hr
          have h1 := List.take_subset _ _ he
          have h2 := mem_of_mem_sortDesc h1
          rcases List.mem_map.mp h2 with ⟨k, hk, rfl⟩
          refine ⟨hk, ?_, rfl⟩
          simp only [blendedSpec, meanSimSpec]
          ring
  · intro catalog vocab _hfit i hi htok top_n htop
    rw [rank_singleton catalog _ i hi top_n htop]
    have hdiag :
        ((build_similarity_matrix catalog vocab).getD i []).getD i 0 = 1 := by
      rw [build_entry catalog vocab i i hi hi]
      rcases htok with ⟨tk, htk, hmem⟩
      exact cosSim_self_one (ne_of_gt (dotW_self_pos_of_mem htk hmem))
    rw [hdiag]
    have harith : (1 : ℝ) * (3 / 5) +
        (((catalog.getD i default).rating.getD 3 : ℚ) : ℝ) / 5 * (2 / 5) =
        3 / 5 * 1 +
          2 / 5 * ((((catalog.getD i default).rating.getD 3 : ℚ) : ℝ) / 5) := by
      ring
    rw [harith]

/-- C1 witness: the text-bearing demo product, ranked alone over the demo
catalog's fitted vocabulary, scores 0.6 × 1 + 0.4 × (5/5). -/
theorem C1_witness :
    isFittedVocab (corpusOf [demoP0, demoP1]) demoVocab ∧
    (1 < ([demoP0, demoP1] : List Product).length) ∧
    (∃ tk ∈ demoVocab,
      tk ∈ docOf (([demoP0, demoP1] : List Product).getD 1 default)) ∧
    rank_on_subset [demoP0, demoP1]
        (some (build_similarity_matrix [demoP0, demoP1] demoVocab))
        [((1 : ℕ) : ℤ)] 5 =
      some [(((1 : ℕ) : ℤ),
        3 / 5 * 1 +
          2 / 5 * (((([demoP0, demoP1].getD 1 default).rating.getD 3 : ℚ) : ℝ) / 5),
        [demoP0, demoP1].getD 1 default)] :=
  ⟨by decide, by decide, ⟨"kering".toList, by decide, by decide⟩,
    C1_rank_blended_score.2 [demoP0, demoP1] demoVocab (by decide) 1 (by decide)
      ⟨"kering".toList, by decide, by decide⟩ 5 (by decide)⟩

/-- Spec scenario: "Kulit berjerawat & berminyak" canonicalizes to the
token pair (berjerawat, berminyak). -/
theorem parse_scenario_acne_oily :
    parse_skin_tokens (some "Kulit berjerawat & berminyak".toList) =
      {berjerawatT, berminyakT} := by decide

/-- Spec scenario: "Kering, normal, kusam" canonicalizes to the token
triple (kering, normal, kusam). -/
theorem parse_scenario_dry_normal_dull :
    parse_skin_tokens (some "Kering, normal, kusam".toList) =
      {keringT, normalT, kusamT} := by decide

end SisPro
